import Mathlib

/-!
Shallow embedding of the s3-cache repository (src/cache.rs, src/actions.rs,
src/s3.rs) and verification of its specification claims.

Conventions of the embedding:
* bytes are `Nat` values `< 256`; a 256-bit digest is a `List Nat` of length 32;
* store keys and paths are `String`s joined with `/` (the code routes every
  `PathBuf` through `to_slash`, so keys are `/`-separated strings);
* fallible operations return `Except`;
* external collaborators (the S3 bucket, the filesystem, the RFC-2822 time
  parser) appear as explicit function parameters.
-/

namespace S3Cache

/-- One lowercase hex digit, as produced by `faster_hex::hex_string`. -/
def hexDigit (n : Nat) : Char :=
  if n < 10 then Char.ofNat (48 + n) else Char.ofNat (87 + n)

/-- A byte rendered as two lowercase hex digits (`faster_hex` renders each
byte high nibble first). -/
def hexByte (b : Nat) : String :=
  String.mk [hexDigit (b / 16 % 16), hexDigit (b % 16)]

/-- Embeds `faster_hex::hex_string` over a byte slice: concatenation of two-digit
renderings of each byte. -/
def hexString : List Nat → String
  | [] => ""
  | b :: rest => hexByte b ++ hexString rest

/-- Embeds `Meta::object_path` (src/actions.rs:29–38): from a 32-byte digest, push
the hex renderings of bytes `0..4`, `4..8`, `8..12` and `12..` as four path
components; rendered here directly in `/`-joined form. Pure: no I/O. -/
def object_path (hash : List Nat) : String :=
  hexString (hash.take 4) ++ "/" ++
  hexString ((hash.drop 4).take 4) ++ "/" ++
  hexString ((hash.drop 8).take 4) ++ "/" ++
  hexString (hash.drop 12)

/-- Embeds `cache::File` (src/cache.rs:53–60): one manifest entry. -/
structure File where
  path : String
  object : Option String
  size : Nat
  mode : Option Nat
  link_target : Option String
deriving DecidableEq, Repr

/-- Embeds `cache::Cache` (src/cache.rs:21–24): the manifest body. -/
structure Cache where
  files : List File
deriving DecidableEq, Repr

/-- Embeds `File::storage_path` (src/cache.rs:92–105): shared object key when
`object` is set, cache-local inline key otherwise. -/
def File.storage_path (f : File) (cache_name : String) : String :=
  match f.object with
  | some s => "objects/" ++ s ++ "/bin"
  | none => "cache/" ++ cache_name ++ "/files/" ++ f.path

/-- Embeds `Cache::entry_location` (src/cache.rs:27–31): the well-known manifest key. -/
def Cache.entry_location (cache_name : String) : String :=
  "cache/" ++ cache_name ++ "/entry"

theorem hexByte_length (b : Nat) : (hexByte b).length = 2 := rfl

theorem hexString_length (bs : List Nat) :
    (hexString bs).length = 2 * bs.length := by
  induction bs with
  | nil => rfl
  | cons b rest ih =>
      simp [hexString, String.length_append, hexByte_length, ih]
      omega

/-! ## Manifest serialization (src/cache.rs)

The JSON text produced by `serde_json::to_string` is modelled as a JSON tree:
`serde_json` renders a tree to text injectively and parses it back, so the
round-trip and field-presence claims are decided at the tree level.  The
`serde` derive on `File`/`Cache`/`CacheVersions` carries no
`skip_serializing_if` attributes, so an `Option` field that is `None` is
serialized as an explicit `null`; on deserialization a missing `Option`
field defaults to `None` and `null` also maps to `None`; unknown fields are
ignored. -/

inductive Json where
  | null
  | bool (b : Bool)
  | num (n : Nat)
  | str (s : String)
  | arr (elems : List Json)
  | obj (fields : List (String × Json))

/-- Member list of a JSON object (empty for non-objects). -/
def Json.fields : Json → List (String × Json)
  | .obj fs => fs
  | _ => []

/-- Field lookup in a serialized JSON object. -/
def lookupField (fields : List (String × Json)) (k : String) : Option Json :=
  (fields.find? (fun p => p.1 == k)).map (fun p => p.2)

/-- Required `String` field: present and a JSON string, else a decode error. -/
def reqStr : Option Json → Except String String
  | some (.str s) => .ok s
  | some _ => .error "invalid type"
  | none => .error "missing field"

/-- Required `u64` field. -/
def reqNat : Option Json → Except String Nat
  | some (.num n) => .ok n
  | some _ => .error "invalid type"
  | none => .error "missing field"

/-- Decodes `Option<String>`: a missing field or `null` is `None`. -/
def optStr : Option Json → Except String (Option String)
  | none => .ok none
  | some .null => .ok none
  | some (.str s) => .ok (some s)
  | some _ => .error "invalid type"

/-- Decodes `Option<u32>`: a missing field or `null` is `None`. -/
def optNat : Option Json → Except String (Option Nat)
  | none => .ok none
  | some .null => .ok none
  | some (.num n) => .ok (some n)
  | some _ => .error "invalid type"

/-- Serializes an `Option`: `None` becomes `null` (no `skip_serializing_if`
attribute appears on any field of `File`). -/
def encodeOpt (enc : α → Json) : Option α → Json
  | none => .null
  | some x => enc x

/-- Serde serialization of `File` (src/cache.rs:53–60): an object with the
five fields in declaration order. -/
def encodeFile (f : File) : Json :=
  .obj [("path", .str f.path),
        ("object", encodeOpt .str f.object),
        ("size", .num f.size),
        ("mode", encodeOpt .num f.mode),
        ("link_target", encodeOpt .str f.link_target)]

/-- Serde deserialization of `File`. -/
def decodeFile (j : Json) : Except String File :=
  match j with
  | .obj fields => do
      let path ← reqStr (lookupField fields "path")
      let object ← optStr (lookupField fields "object")
      let size ← reqNat (lookupField fields "size")
      let mode ← optNat (lookupField fields "mode")
      let lt ← optStr (lookupField fields "link_target")
      pure ⟨path, object, size, mode, lt⟩
  | _ => .error "invalid type"

/-- Serde deserialization of `Vec<File>`: element-wise, in order. -/
def decodeFileList : List Json → Except String (List File)
  | [] => .ok []
  | j :: rest => do
      let f ← decodeFile j
      let fs ← decodeFileList rest
      pure (f :: fs)

/-- Serde serialization of `Cache` (src/cache.rs:21–24). -/
def encodeCache (c : Cache) : Json :=
  .obj [("files", .arr (c.files.map encodeFile))]

/-- Serde deserialization of `Cache`. -/
def decodeCache (j : Json) : Except String Cache :=
  match j with
  | .obj fields =>
      match lookupField fields "files" with
      | some (.arr xs) => (decodeFileList xs).map (fun fs => ⟨fs⟩)
      | some _ => .error "invalid type"
      | none => .error "missing field"
  | _ => .error "invalid type"

/-- Embeds `CacheVersions` (src/cache.rs:15–19): the explicit schema-version
wrapper, variant `V1` renamed to `v1` on the wire. -/
inductive CacheVersions where
  | v1 (c : Cache)
deriving DecidableEq

/-- Serde serialization of the externally tagged enum `CacheVersions`. -/
def encodeVersions : CacheVersions → Json
  | .v1 c => .obj [("v1", encodeCache c)]

/-- Serde deserialization of `CacheVersions`: a map with a single key naming
the variant. -/
def decodeVersions (j : Json) : Except String CacheVersions :=
  match j with
  | .obj [(k, v)] =>
      if k = "v1" then (decodeCache v).map .v1 else .error "unknown variant"
  | _ => .error "expected externally tagged enum"

/-- Embeds `Cache::into_string` (src/cache.rs:40–43) at the JSON-tree level:
wrap in the `v1` version tag and serialize. -/
def Cache.into_json (c : Cache) : Json :=
  encodeVersions (.v1 c)

/-- Embeds `cache::decode` (src/cache.rs:46–51) at the JSON-tree level. -/
def decode (j : Json) : Except String Cache :=
  match decodeVersions j with
  | .ok (.v1 c) => .ok c
  | .error e => .error e

theorem decodeFile_encodeFile (f : File) : decodeFile (encodeFile f) = .ok f := by
  obtain ⟨p, o, s, m, l⟩ := f
  cases o <;> cases m <;> cases l <;> rfl

theorem decodeFileList_encode (fs : List File) :
    decodeFileList (fs.map encodeFile) = .ok fs := by
  induction fs with
  | nil => rfl
  | cons f rest ih =>
      simp only [decodeFileList, decodeFile_encodeFile, ih]
      rfl

theorem decode_into_json (c : Cache) : decode (Cache.into_json c) = .ok c := by
  obtain ⟨fs⟩ := c
  simp [decode, Cache.into_json, encodeVersions, decodeVersions, encodeCache, decodeCache,
        lookupField, List.find?, decodeFileList_encode, Except.map]

/-! ## Content hashing (src/cache.rs:108–123)

Full SHA-256 over byte lists, plus the read loop of `read_hash`: the loop
repeatedly reads at most one buffer of bytes and feeds each chunk to
`Sha256::update`; the `sha2` collaborator's streaming contract is that the
digest is SHA-256 of the concatenation of all updates. -/

/-- Word arithmetic modulo `2^32`. -/
def wadd (a b : Nat) : Nat := (a + b) % 4294967296

/-- Bitwise complement on 32-bit words. -/
def wnot (x : Nat) : Nat := Nat.xor x 4294967295

/-- Right rotation of a 32-bit word. -/
def rotr (n x : Nat) : Nat :=
  Nat.lor (Nat.shiftRight x n) (Nat.shiftLeft x (32 - n)) % 4294967296

def shaCh (e f g : Nat) : Nat := Nat.xor (Nat.land e f) (Nat.land (wnot e) g)

def shaMaj (a b c : Nat) : Nat :=
  Nat.xor (Nat.xor (Nat.land a b) (Nat.land a c)) (Nat.land b c)

def shaS0 (x : Nat) : Nat := Nat.xor (Nat.xor (rotr 7 x) (rotr 18 x)) (Nat.shiftRight x 3)

def shaS1 (x : Nat) : Nat := Nat.xor (Nat.xor (rotr 17 x) (rotr 19 x)) (Nat.shiftRight x 10)

def shaB0 (x : Nat) : Nat := Nat.xor (Nat.xor (rotr 2 x) (rotr 13 x)) (rotr 22 x)

def shaB1 (x : Nat) : Nat := Nat.xor (Nat.xor (rotr 6 x) (rotr 11 x)) (rotr 25 x)

/-- The 64 SHA-256 round constants (decimal). -/
def shaK : List Nat :=
  [1116352408, 1899447441, 3049323471, 3921009573, 961987163,
   1508970993, 2453635748, 2870763221, 3624381080, 310598401,
   607225278, 1426881987, 1925078388, 2162078206, 2614888103,
   3248222580, 3835390401, 4022224774, 264347078, 604807628,
   770255983, 1249150122, 1555081692, 1996064986, 2554220882,
   2821834349, 2952996808, 3210313671, 3336571891, 3584528711,
   113926993, 338241895, 666307205, 773529912, 1294757372,
   1396182291, 1695183700, 1986661051, 2177026350, 2456956037,
   2730485921, 2820302411, 3259730800, 3345764771, 3516065817,
   3600352804, 4094571909, 275423344, 430227734, 506948616,
   659060556, 883997877, 958139571, 1322822218, 1537002063,
   1747873779, 1955562222, 2024104815, 2227730452, 2361852424,
   2428436474, 2756734187, 3204031479, 3329325298]

/-- The eight SHA-256 working words. -/
structure Hash8 where
  a : Nat
  b : Nat
  c : Nat
  d : Nat
  e : Nat
  f : Nat
  g : Nat
  h : Nat

/-- The SHA-256 initial hash value (decimal). -/
def shaH0 : Hash8 :=
  ⟨1779033703, 3144134277, 1013904242, 2773480762,
   1359893119, 2600822924, 528734635, 1541459225⟩

/-- One SHA-256 compression round. -/
def shaRound (st : Hash8) (k w : Nat) : Hash8 :=
  let t1 := wadd (wadd (wadd (wadd st.h (shaB1 st.e)) (shaCh st.e st.f st.g)) k) w
  let t2 := wadd (shaB0 st.a) (shaMaj st.a st.b st.c)
  ⟨wadd t1 t2, st.a, st.b, st.c, wadd st.d t1, st.e, st.f, st.g⟩

/-- SHA-256 padding: append `0x80`, zero bytes to reach 56 mod 64, then the
bit length as eight big-endian bytes. -/
def padMessage (msg : List Nat) : List Nat :=
  let bitLen := 8 * msg.length
  let padZeros := (119 - msg.length % 64) % 64
  msg ++ [128] ++ List.replicate padZeros 0 ++
  [bitLen / 2 ^ 56 % 256, bitLen / 2 ^ 48 % 256, bitLen / 2 ^ 40 % 256, bitLen / 2 ^ 32 % 256,
   bitLen / 2 ^ 24 % 256, bitLen / 2 ^ 16 % 256, bitLen / 2 ^ 8 % 256, bitLen % 256]

/-- Splits the padded message into 64-byte blocks. -/
def toBlocks (l : List Nat) : List (List Nat) :=
  if hl : l = [] then [] else l.take 64 :: toBlocks (l.drop 64)
termination_by l.length
decreasing_by
  simp [List.length_drop]
  exact Nat.pos_of_ne_zero (fun hz => hl (List.eq_nil_of_length_eq_zero hz))

/-- A big-endian 32-bit word from four bytes. -/
def beWord (bs : List Nat) : Nat :=
  match bs with
  | [a, b, c, d] => ((a * 256 + b) * 256 + c) * 256 + d
  | _ => 0

/-- The sixteen message words of one block. -/
def blockWords (block : List Nat) : List Nat :=
  (List.range 16).map (fun i => beWord ((block.drop (4 * i)).take 4))

/-- Extends the message schedule by `n` further words. -/
def extendSchedule : Nat → List Nat → List Nat
  | 0, ws => ws
  | n + 1, ws =>
      let t := ws.length
      let w := wadd (wadd (shaS1 (ws.getD (t - 2) 0)) (ws.getD (t - 7) 0))
                    (wadd (shaS0 (ws.getD (t - 15) 0)) (ws.getD (t - 16) 0))
      extendSchedule n (ws ++ [w])

/-- SHA-256 compression of one block. -/
def shaCompress (h : Hash8) (block : List Nat) : Hash8 :=
  let ws := extendSchedule 48 (blockWords block)
  let st := (shaK.zip ws).foldl (fun st kw => shaRound st kw.1 kw.2) h
  ⟨wadd h.a st.a, wadd h.b st.b, wadd h.c st.c, wadd h.d st.d,
   wadd h.e st.e, wadd h.f st.f, wadd h.g st.g, wadd h.h st.h⟩

/-- The 32 output bytes of a final hash state, big-endian per word. -/
def hashBytes (h : Hash8) : List Nat :=
  [h.a / 2 ^ 24 % 256, h.a / 2 ^ 16 % 256, h.a / 2 ^ 8 % 256, h.a % 256,
   h.b / 2 ^ 24 % 256, h.b / 2 ^ 16 % 256, h.b / 2 ^ 8 % 256, h.b % 256,
   h.c / 2 ^ 24 % 256, h.c / 2 ^ 16 % 256, h.c / 2 ^ 8 % 256, h.c % 256,
   h.d / 2 ^ 24 % 256, h.d / 2 ^ 16 % 256, h.d / 2 ^ 8 % 256, h.d % 256,
   h.e / 2 ^ 24 % 256, h.e / 2 ^ 16 % 256, h.e / 2 ^ 8 % 256, h.e % 256,
   h.f / 2 ^ 24 % 256, h.f / 2 ^ 16 % 256, h.f / 2 ^ 8 % 256, h.f % 256,
   h.g / 2 ^ 24 % 256, h.g / 2 ^ 16 % 256, h.g / 2 ^ 8 % 256, h.g % 256,
   h.h / 2 ^ 24 % 256, h.h / 2 ^ 16 % 256, h.h / 2 ^ 8 % 256, h.h % 256]

/-- SHA-256 of a byte list: the digest computed by the `sha2` collaborator
over the full stream of updated bytes. -/
def sha256 (msg : List Nat) : List Nat :=
  hashBytes ((toBlocks (padMessage msg)).foldl shaCompress shaH0)

/-- Buffer size chosen by `read_hash` (src/cache.rs:111):
`len.unwrap_or(0).clamp(4096, 1024*1024)`. -/
def buf_size (len : Option Nat) : Nat :=
  min (max (len.getD 0) 4096) (1024 * 1024)

/-- The byte stream fed to the hasher by the read loop of `read_hash`
(src/cache.rs:116–120): each loop iteration appends one read chunk via
`Sha256::update`. -/
def readHashFed (chunks : List (List Nat)) : List Nat :=
  chunks.foldl (fun fed c => fed ++ c) []

/-- One possible sequence of reads of `read_hash`'s loop over a file holding
`content`: every read before end of file returns between 1 and `bufSize`
bytes, and reading stops at end of file, so the chunks partition `content`
in order. -/
def IsReadRun (bufSize : Nat) (chunks : List (List Nat)) (content : List Nat) : Prop :=
  chunks.flatten = content ∧ ∀ c ∈ chunks, c ≠ [] ∧ c.length ≤ bufSize

/-- Embeds `read_hash` (src/cache.rs:108–123) for one read run: the digest of
all bytes fed to the hasher across the loop. -/
def read_hash (chunks : List (List Nat)) : List Nat :=
  sha256 (readHashFed chunks)

theorem readHashFed_eq_join (chunks : List (List Nat)) :
    readHashFed chunks = chunks.flatten := by
  suffices h : ∀ acc : List Nat,
      chunks.foldl (fun fed c => fed ++ c) acc = acc ++ chunks.flatten by
    simpa [readHashFed] using h []
  induction chunks with
  | nil => intro acc; simp
  | cons c rest ih => intro acc; simp [List.foldl_cons, ih]

theorem hashBytes_length (h : Hash8) : (hashBytes h).length = 32 := rfl

/-! ## Upload scheduler (src/actions.rs:170–285)

The loop owns all scheduling state and processes one completed task per
iteration; `JoinSet::join_next` hands back outstanding tasks in no fixed
order, modelled as a nondeterministic step relation that may pick any
outstanding task. -/

/-- Relevant part of `std::fs::Metadata` for a regular file: byte length and
unix permission bits. -/
structure FileStat where
  len : Nat
  mode : Nat
deriving DecidableEq, Repr

/-- Embeds `Meta` (src/actions.rs:11–17): resolved metadata for one path. -/
structure Meta where
  path : String
  file : Option FileStat
  hash : Option (List Nat)
  link_target : Option String
deriving DecidableEq, Repr

/-- Embeds `Meta::cacheable_link` (src/actions.rs:40–42). -/
def Meta.cacheable_link (m : Meta) : Option String := m.link_target

/-- Embeds `Meta::is_cacheable_file` (src/actions.rs:44–46). -/
def Meta.is_cacheable_file (m : Meta) : Bool := m.hash.isSome && m.file.isSome

/-- Embeds `Meta::object_path` (src/actions.rs:29–38) applied to the resolved
hash. -/
def Meta.object_path_opt (m : Meta) : Option String := m.hash.map object_path

/-- Embeds `Meta::get_mode` on unix (src/actions.rs:48–53). -/
def Meta.get_mode (m : Meta) : Option Nat := m.file.map (·.mode)

/-- The manifest entry built for a cacheable regular file
(src/actions.rs:230–249): size from the stat (`map_or(0, len)`), mode from
`get_mode`, and `object` set to the content address exactly when the size
exceeds `cache_threshold`. -/
def regularEntry (m : Meta) (T : Nat) : File :=
  let size := (m.file.map FileStat.len).getD 0
  let object := if size > T then some (m.object_path_opt.getD "") else none
  ⟨m.path, object, size, m.get_mode, none⟩

/-- The manifest entry built for a symlink (src/actions.rs:211–217): size is
the byte length of the link target text, no address, no mode. -/
def symlinkEntry (m : Meta) (link : String) : File :=
  ⟨m.path, none, link.length, none, some link⟩

/-- Mutable state owned by the upload loop (src/actions.rs:190–192): the
outstanding tasks of the join set (split by kind), the FIFO `delayed` queue,
the `net_in_flight` counter and the manifest under construction.  `done`
counts completed uploads; it is ghost instrumentation used only to state
completion. -/
structure SchedState where
  metas : List (Except String Meta)
  uploads : List File
  delayed : List File
  net_in_flight : Nat
  files : List File
  done : Nat

/-- Embeds the `UploadWork::Meta` arm of the loop (src/actions.rs:200–259):
append the manifest entry decided by the resolved metadata, then either
spawn the file's upload (capacity permitting) or push it on the pending
queue; symlinks and non-cacheable paths schedule no upload. -/
def processMeta (K T : Nat) (s : SchedState) (m : Meta) : SchedState :=
  match m.cacheable_link with
  | some link =>
      { s with files := s.files ++ [symlinkEntry m link] }
  | none =>
      if m.is_cacheable_file then
        let file := regularEntry m T
        let s1 := { s with files := s.files ++ [file] }
        if s1.net_in_flight ≥ K then
          { s1 with delayed := s1.delayed ++ [file] }
        else
          { s1 with net_in_flight := s1.net_in_flight + 1,
                    uploads := s1.uploads ++ [file] }
      else
        s

/-- Embeds the promotion loop (src/actions.rs:265–268): while the pending
queue is non-empty and capacity allows, pop the front of the queue into the
join set. -/
def promoteLoop (K : Nat) : List File → Nat → List File → List File × Nat × List File
  | [], net, ups => ([], net, ups)
  | f :: rest, net, ups =>
      if net < K then promoteLoop K rest (net + 1) (ups ++ [f])
      else (f :: rest, net, ups)

/-- Embeds the `UploadWork::Upload` arm (src/actions.rs:261–269): decrement
the in-flight counter, then promote delayed uploads. -/
def processUpload (K : Nat) (s : SchedState) : SchedState :=
  let r := promoteLoop K s.delayed (s.net_in_flight - 1) s.uploads
  { s with delayed := r.1, net_in_flight := r.2.1, uploads := r.2.2,
           done := s.done + 1 }

/-- Observable outcome of the loop: still running, or returned early with an
error through `?` (src/actions.rs:197, 201, 262). -/
inductive Outcome where
  | running (s : SchedState)
  | failed (e : String)

/-- One iteration of the upload loop (src/actions.rs:195–271): `join_next`
hands back any outstanding task.  A metadata task carries its predetermined
resolution result; an upload task's result is given by the oracle `uRes`.
An error result makes the loop return that error. -/
inductive Step (K T : Nat) (uRes : File → Except String Unit) : Outcome → Outcome → Prop where
  | metaOk (s : SchedState) (pre post : List (Except String Meta)) (m : Meta)
      (hm : s.metas = pre ++ .ok m :: post) :
      Step K T uRes (.running s)
        (.running (processMeta K T { s with metas := pre ++ post } m))
  | metaErr (s : SchedState) (pre post : List (Except String Meta)) (e : String)
      (hm : s.metas = pre ++ .error e :: post) :
      Step K T uRes (.running s) (.failed e)
  | uploadOk (s : SchedState) (pre post : List File) (f : File)
      (hu : s.uploads = pre ++ f :: post) (hr : uRes f = .ok ()) :
      Step K T uRes (.running s)
        (.running (processUpload K { s with uploads := pre ++ post }))
  | uploadErr (s : SchedState) (pre post : List File) (f : File) (e : String)
      (hu : s.uploads = pre ++ f :: post) (hr : uRes f = .error e) :
      Step K T uRes (.running s) (.failed e)

/-- Loop state right after fan-out (src/actions.rs:176–192): every metadata
task spawned, no uploads, empty pending queue, zero in flight. -/
def initState (metas : List (Except String Meta)) : SchedState :=
  ⟨metas, [], [], 0, [], 0⟩

/-- Reachability of one loop outcome from another. -/
def Reach (K T : Nat) (uRes : File → Except String Unit) : Outcome → Outcome → Prop :=
  Relation.ReflTransGen (Step K T uRes)

/-- Whether a metadata result leads to a scheduled upload: a successfully
resolved, non-symlink, cacheable regular file. -/
def uploadable : Except String Meta → Bool
  | .ok m => m.cacheable_link.isNone && m.is_cacheable_file
  | .error _ => false

/-- Number of inputs that will require an upload. -/
def cacheableCount (metas : List (Except String Meta)) : Nat :=
  (metas.filter uploadable).length

/-- Decrease measure of the loop: a metadata task costs more than the upload
it may enqueue, and a delayed upload more than a spawned one. -/
def schedMeasure (s : SchedState) : Nat :=
  3 * s.metas.length + 2 * s.delayed.length + s.uploads.length

/-- The scheduling invariant of the upload loop: the in-flight counter
matches the outstanding upload tasks, respects the cap `K`, the pending
queue is non-empty only at full capacity, completed plus outstanding plus
pending plus unresolved uploadable work accounts for all `N` uploadable
inputs, and every manifest entry keeps address and link target exclusive. -/
structure Inv (K N : Nat) (s : SchedState) : Prop where
  net_eq : s.net_in_flight = s.uploads.length
  net_le : s.net_in_flight ≤ K
  delayed_cap : s.delayed ≠ [] → s.net_in_flight = K
  acct : s.done + s.uploads.length + s.delayed.length + cacheableCount s.metas = N
  entries : ∀ f ∈ s.files, f.link_target.isSome → f.object = none ∧ f.mode = none

/-- The invariant lifted to outcomes (an aborted loop holds no state). -/
def InvO (K N : Nat) : Outcome → Prop
  | .running s => Inv K N s
  | .failed _ => True

theorem promoteLoop_spec (K : Nat) :
    ∀ (d : List File) (net : Nat) (ups : List File), net ≤ K →
      ∃ moved rest, d = moved ++ rest ∧
        (promoteLoop K d net ups).1 = rest ∧
        (promoteLoop K d net ups).2.1 = net + moved.length ∧
        (promoteLoop K d net ups).2.2 = ups ++ moved ∧
        net + moved.length ≤ K ∧ (rest ≠ [] → net + moved.length = K) := by
  intro d
  induction d with
  | nil =>
      intro net ups hle
      exact ⟨[], [], by simp, by simp [promoteLoop], by simp [promoteLoop],
             by simp [promoteLoop], by simpa, by simp⟩
  | cons f rest0 ih =>
      intro net ups hle
      by_cases hlt : net < K
      · obtain ⟨moved, rest, hsplit, h1, h2, h3, hle2, hcap⟩ := ih (net + 1) (ups ++ [f]) hlt
        have hstep : promoteLoop K (f :: rest0) net ups
            = promoteLoop K rest0 (net + 1) (ups ++ [f]) := by
          simp [promoteLoop, hlt]
        refine ⟨f :: moved, rest, by simp [hsplit], ?_, ?_, ?_, ?_, ?_⟩
        · rw [hstep, h1]
        · rw [hstep, h2]
          simp only [List.length_cons]
          omega
        · rw [hstep, h3]
          simp
        · simp only [List.length_cons]
          omega
        · intro hne
          have := hcap hne
          simp only [List.length_cons]
          omega
      · refine ⟨[], f :: rest0, by simp, ?_, ?_, ?_, by simpa using hle, ?_⟩
        · simp [promoteLoop, hlt]
        · simp [promoteLoop, hlt]
        · simp [promoteLoop, hlt]
        · intro _
          simp only [List.length_nil]
          omega

theorem cacheableCount_middle (pre post : List (Except String Meta))
    (x : Except String Meta) :
    cacheableCount (pre ++ x :: post)
      = cacheableCount (pre ++ post) + if uploadable x then 1 else 0 := by
  simp only [cacheableCount, List.filter_append, List.filter_cons, List.length_append]
  by_cases h : uploadable x <;> simp [h] <;> omega

theorem step_preserves_inv {K T N : Nat} {uRes : File → Except String Unit}
    {o o' : Outcome} (hst : Step K T uRes o o') (h : InvO K N o) : InvO K N o' := by
  cases hst with
  | metaErr s pre post e hm => trivial
  | uploadErr s pre post f e hu hr => trivial
  | metaOk s pre post m hm =>
      obtain ⟨hnet, hle, hcap, hacct, hent⟩ := h
      rw [hm, cacheableCount_middle] at hacct
      show Inv K N (processMeta K T { s with metas := pre ++ post } m)
      cases hlink : m.cacheable_link with
      | some link =>
          have hup : uploadable (.ok m) = false := by
            simp [uploadable, hlink]
          rw [hup, if_neg (by simp)] at hacct
          have hred : processMeta K T { s with metas := pre ++ post } m
              = { s with metas := pre ++ post,
                         files := s.files ++ [symlinkEntry m link] } := by
            simp [processMeta, hlink]
          rw [hred]
          refine ⟨hnet, hle, hcap, by simpa using hacct, ?_⟩
          intro f hf
          rcases List.mem_append.mp hf with hf | hf
          · exact hent f hf
          · rcases List.mem_singleton.mp hf with rfl
            intro _
            exact ⟨rfl, rfl⟩
      | none =>
          have hup : uploadable (.ok m) = m.is_cacheable_file := by
            simp [uploadable, hlink]
          by_cases hcf : m.is_cacheable_file
          · rw [hup, hcf, if_pos rfl] at hacct
            by_cases hK : s.net_in_flight ≥ K
            · -- delay branch: entry appended to the pending queue
              have hred : processMeta K T { s with metas := pre ++ post } m
                  = { s with metas := pre ++ post,
                             files := s.files ++ [regularEntry m T],
                             delayed := s.delayed ++ [regularEntry m T] } := by
                simp [processMeta, hlink, hcf, hK]
              rw [hred]
              refine ⟨hnet, hle, ?_, ?_, ?_⟩
              · intro _
                show s.net_in_flight = K
                omega
              · show s.done + s.uploads.length
                    + (s.delayed ++ [regularEntry m T]).length
                    + cacheableCount (pre ++ post) = N
                simp only [List.length_append, List.length_singleton]
                omega
              · intro f hf
                rcases List.mem_append.mp hf with hf | hf
                · exact hent f hf
                · rcases List.mem_singleton.mp hf with rfl
                  simp [regularEntry]
            · -- spawn branch: upload scheduled immediately
              have hred : processMeta K T { s with metas := pre ++ post } m
                  = { s with metas := pre ++ post,
                             files := s.files ++ [regularEntry m T],
                             net_in_flight := s.net_in_flight + 1,
                             uploads := s.uploads ++ [regularEntry m T] } := by
                simp [processMeta, hlink, hcf, hK]
              rw [hred]
              have hdel : s.delayed = [] := by
                by_contra hne
                exact hK (le_of_eq (hcap hne).symm)
              refine ⟨?_, ?_, ?_, ?_, ?_⟩
              · show s.net_in_flight + 1 = (s.uploads ++ [regularEntry m T]).length
                simp [hnet]
              · show s.net_in_flight + 1 ≤ K
                omega
              · intro hne
                exact absurd hdel hne
              · show s.done + (s.uploads ++ [regularEntry m T]).length
                    + s.delayed.length + cacheableCount (pre ++ post) = N
                simp only [List.length_append, List.length_singleton]
                omega
              · intro f hf
                rcases List.mem_append.mp hf with hf | hf
                · exact hent f hf
                · rcases List.mem_singleton.mp hf with rfl
                  simp [regularEntry]
          · rw [hup, if_neg (by simpa using hcf)] at hacct
            have hred : processMeta K T { s with metas := pre ++ post } m
                = { s with metas := pre ++ post } := by
              simp [processMeta, hlink, hcf]
            rw [hred]
            exact ⟨hnet, hle, hcap, by simpa using hacct, hent⟩
  | uploadOk s pre post f hu hr =>
      obtain ⟨hnet, hle, hcap, hacct, hent⟩ := h
      show Inv K N (processUpload K { s with uploads := pre ++ post })
      obtain ⟨moved, rest, hsplit, h1, h2, h3, hle2, hcap2⟩ :=
        promoteLoop_spec K s.delayed (s.net_in_flight - 1) (pre ++ post)
          (by omega)
      have hlen : s.uploads.length = pre.length + post.length + 1 := by
        rw [hu]
        simp only [List.length_append, List.length_cons]
        omega
      have hd : s.delayed.length = moved.length + rest.length := by
        rw [hsplit]
        simp
      refine ⟨?_, ?_, ?_, ?_, hent⟩
      · show (promoteLoop K s.delayed (s.net_in_flight - 1) (pre ++ post)).2.1
            = (promoteLoop K s.delayed (s.net_in_flight - 1) (pre ++ post)).2.2.length
        rw [h2, h3]
        simp only [List.length_append]
        omega
      · show (promoteLoop K s.delayed (s.net_in_flight - 1) (pre ++ post)).2.1 ≤ K
        rw [h2]
        exact hle2
      · show (promoteLoop K s.delayed (s.net_in_flight - 1) (pre ++ post)).1 ≠ [] →
            (promoteLoop K s.delayed (s.net_in_flight - 1) (pre ++ post)).2.1 = K
        rw [h1, h2]
        exact hcap2
      · show s.done + 1
            + (promoteLoop K s.delayed (s.net_in_flight - 1) (pre ++ post)).2.2.length
            + (promoteLoop K s.delayed (s.net_in_flight - 1) (pre ++ post)).1.length
            + cacheableCount s.metas = N
        rw [h1, h3]
        simp only [List.length_append]
        omega

theorem reach_inv {K T N : Nat} {uRes : File → Except String Unit} {o o' : Outcome}
    (hr : Reach K T uRes o o') (h : InvO K N o) : InvO K N o' := by
  induction hr with
  | refl => exact h
  | tail _ hstep ih => exact step_preserves_inv hstep ih

theorem initState_inv (K N : Nat) (metas : List (Except String Meta))
    (hN : cacheableCount metas = N) : Inv K N (initState metas) := by
  refine ⟨rfl, Nat.zero_le K, fun h => absurd rfl h, ?_, by simp [initState]⟩
  show 0 + 0 + 0 + cacheableCount metas = N
  simpa using hN

theorem processMeta_metas (K T : Nat) (s : SchedState) (m : Meta) :
    (processMeta K T s m).metas = s.metas := by
  unfold processMeta
  split
  · rfl
  · split
    · dsimp only
      split
      · rfl
      · rfl
    · rfl

/-- All outstanding metadata tasks resolve successfully (holds throughout a
run whose inputs all resolve). -/
def MetasOkO : Outcome → Prop
  | .running s => ∀ x ∈ s.metas, ∃ m, x = .ok m
  | .failed _ => True

theorem step_preserves_metasOk {K T : Nat} {uRes : File → Except String Unit}
    {o o' : Outcome} (hst : Step K T uRes o o') (h : MetasOkO o) : MetasOkO o' := by
  cases hst with
  | metaErr s pre post e hm => trivial
  | uploadErr s pre post f e hu hr => trivial
  | metaOk s pre post m hm =>
      intro x hx
      rw [processMeta_metas] at hx
      apply h
      rw [hm]
      rcases List.mem_append.mp hx with h' | h'
      · exact List.mem_append.mpr (Or.inl h')
      · exact List.mem_append.mpr (Or.inr (List.mem_cons_of_mem _ h'))
  | uploadOk s pre post f hu hr =>
      intro x hx
      exact h x hx

theorem reach_metasOk {K T : Nat} {uRes : File → Except String Unit} {o o' : Outcome}
    (hr : Reach K T uRes o o') (h : MetasOkO o) : MetasOkO o' := by
  induction hr with
  | refl => exact h
  | tail _ hstep ih => exact step_preserves_metasOk hstep ih

theorem progress_running {K T : Nat} {uRes : File → Except String Unit} (s : SchedState)
    (hok : ∀ x ∈ s.metas, ∃ m, x = .ok m) (hu : ∀ fl, uRes fl = .ok ())
    (hne : s.metas ≠ [] ∨ s.uploads ≠ []) :
    ∃ s', Step K T uRes (.running s) (.running s') := by
  rcases hne with h | h
  · rcases hms : s.metas with _ | ⟨x, rest⟩
    · exact absurd hms h
    · obtain ⟨m, rfl⟩ := hok x (by rw [hms]; exact List.mem_cons_self x rest)
      exact ⟨_, .metaOk s [] rest m hms⟩
  · rcases hus : s.uploads with _ | ⟨f, rest⟩
    · exact absurd hus h
    · exact ⟨_, .uploadOk s [] rest f hus (hu f)⟩

theorem processMeta_measure (K T : Nat) (s : SchedState) (m : Meta) :
    schedMeasure (processMeta K T s m) ≤ schedMeasure s + 2 := by
  cases hlink : m.cacheable_link with
  | some link =>
      have hred : processMeta K T s m
          = { s with files := s.files ++ [symlinkEntry m link] } := by
        simp [processMeta, hlink]
      rw [hred]
      show 3 * s.metas.length + 2 * s.delayed.length + s.uploads.length
          ≤ schedMeasure s + 2
      simp [schedMeasure]
  | none =>
      by_cases hcf : m.is_cacheable_file
      · by_cases hK : s.net_in_flight ≥ K
        · have hred : processMeta K T s m
              = { s with files := s.files ++ [regularEntry m T],
                         delayed := s.delayed ++ [regularEntry m T] } := by
            simp [processMeta, hlink, hcf, hK]
          rw [hred]
          show 3 * s.metas.length + 2 * (s.delayed ++ [regularEntry m T]).length
              + s.uploads.length ≤ schedMeasure s + 2
          simp [schedMeasure, List.length_append]
          omega
        · have hred : processMeta K T s m
              = { s with files := s.files ++ [regularEntry m T],
                         net_in_flight := s.net_in_flight + 1,
                         uploads := s.uploads ++ [regularEntry m T] } := by
            simp [processMeta, hlink, hcf, hK]
          rw [hred]
          show 3 * s.metas.length + 2 * s.delayed.length
              + (s.uploads ++ [regularEntry m T]).length ≤ schedMeasure s + 2
          simp [schedMeasure, List.length_append]
          omega
      · have hred : processMeta K T s m = s := by
          simp [processMeta, hlink, hcf]
        rw [hred]
        omega

theorem step_decreases {K T N : Nat} {uRes : File → Except String Unit}
    {s s' : SchedState} (hst : Step K T uRes (.running s) (.running s'))
    (hInv : Inv K N s) : schedMeasure s' < schedMeasure s := by
  cases hst with
  | metaOk s pre post m hm =>
      have h1 := processMeta_measure K T { s with metas := pre ++ post } m
      have h2 : schedMeasure { s with metas := pre ++ post } + 3 = schedMeasure s := by
        show 3 * (pre ++ post).length + 2 * s.delayed.length + s.uploads.length + 3
            = schedMeasure s
        simp [schedMeasure, hm, List.length_append, List.length_cons]
        omega
      omega
  | uploadOk s pre post f hu hr =>
      obtain ⟨hnet, hle, hcap, hacct, hent⟩ := hInv
      obtain ⟨moved, rest, hsplit, h1, h2, h3, hle2, hcap2⟩ :=
        promoteLoop_spec K s.delayed (s.net_in_flight - 1) (pre ++ post) (by omega)
      have hm1 : schedMeasure (processUpload K { s with uploads := pre ++ post })
          = 3 * s.metas.length + 2 * rest.length + (pre ++ post ++ moved).length := by
        show 3 * s.metas.length
            + 2 * (promoteLoop K s.delayed (s.net_in_flight - 1) (pre ++ post)).1.length
            + (promoteLoop K s.delayed (s.net_in_flight - 1) (pre ++ post)).2.2.length
            = _
        rw [h1, h3]
      have hsm : schedMeasure s = 3 * s.metas.length
          + 2 * (moved.length + rest.length) + (pre.length + post.length + 1) := by
        simp [schedMeasure, hsplit, hu, List.length_append, List.length_cons]
        omega
      rw [hm1, hsm]
      simp only [List.length_append]
      omega

theorem no_step_iff {K T : Nat} {uRes : File → Except String Unit} (s : SchedState) :
    (∀ o, ¬ Step K T uRes (.running s) o) ↔ s.metas = [] ∧ s.uploads = [] := by
  constructor
  · intro h
    constructor
    · rcases hms : s.metas with _ | ⟨x, rest⟩
      · rfl
      · exfalso
        cases x with
        | ok m => exact h _ (.metaOk s [] rest m hms)
        | error e => exact h _ (.metaErr s [] rest e hms)
    · rcases hus : s.uploads with _ | ⟨f, rest⟩
      · rfl
      · exfalso
        cases hr : uRes f with
        | ok u => cases u; exact h _ (.uploadOk s [] rest f hus hr)
        | error e => exact h _ (.uploadErr s [] rest f e hus hr)
  · rintro ⟨hm, hu⟩ o ho
    cases ho <;> simp_all

theorem terminal_state {K N : Nat} {s : SchedState}
    (hInv : Inv K N s) (hK : 1 ≤ K) (hm : s.metas = []) (hu : s.uploads = []) :
    s.delayed = [] ∧ s.done = N := by
  obtain ⟨hnet, hle, hcap, hacct, hent⟩ := hInv
  have hnet0 : s.net_in_flight = 0 := by
    rw [hnet, hu]
    rfl
  have hdel : s.delayed = [] := by
    by_contra hne
    have := hcap hne
    omega
  refine ⟨hdel, ?_⟩
  rw [hm, hdel, hu] at hacct
  simpa [cacheableCount] using hacct

/-! ## Download drain loop (src/actions.rs:323–347) -/

/-- Embeds the drain loop of `download` (src/actions.rs:335–344): completed
download results are handled one at a time; the first failure returns its
error (`with_context` and `?`), and later results are never examined. -/
def downloadLoop : List (Except String Unit) → Except String Unit
  | [] => .ok ()
  | .error e :: _ => .error e
  | .ok _ :: rest => downloadLoop rest

/-! ## Recursive sweeps (src/s3.rs:247–320) -/

/-- One result page of `bucket.list`: leaf objects plus optional child
prefixes. -/
structure ListPage where
  contents : List String
  common_prefixes : Option (List String)

/-- The child prefixes pushed for one page (src/s3.rs:263–267): none when
`common_prefixes` is absent. -/
def pagePrefixes (pg : ListPage) : List String := pg.common_prefixes.getD []

/-- Visits the leaf objects of one page in order (src/s3.rs:259–261): a
visitor error propagates through `?`; returns the keys visited. -/
def visitContents (f : String → Except ε Unit) : List String → Except ε (List String)
  | [] => .ok []
  | k :: ks =>
      match f k with
      | .error e => .error e
      | .ok _ => (visitContents f ks).map (fun rest => k :: rest)

/-- Processes the result pages of one listing (src/s3.rs:257–268): visit
every leaf object, collect the child prefixes to push. -/
def visitPages (f : String → Except ε Unit) :
    List ListPage → Except ε (List String × List String)
  | [] => .ok ([], [])
  | pg :: pgs =>
      match visitContents f pg.contents with
      | .error e => .error e
      | .ok ks => (visitPages f pgs).map (fun r => (ks ++ r.1, pagePrefixes pg ++ r.2))

/-- Embeds `Connection::recursive_visit_` (src/s3.rs:247–272): an iterative
walk over a work stack of prefixes (`Vec::push` / `Vec::pop`, head of the
list is the top), seeded with one root.  `store` is the bucket's listing
operation; its failure propagates through `?` (`Sum.inl`), a visitor failure
likewise (`Sum.inr`).  `fuel` bounds the number of iterations (the source
relies on the store being a finite tree).  Returns the keys visited. -/
def recursive_visit (store : String → Except σ (List ListPage))
    (f : String → Except ε Unit) : Nat → List String → Except (σ ⊕ ε) (List String)
  | 0, _ => .ok []
  | _ + 1, [] => .ok []
  | fuel + 1, p :: work =>
      match store p with
      | .error e => .error (.inl e)
      | .ok pages =>
          match visitPages f pages with
          | .error e => .error (.inr e)
          | .ok r =>
              (recursive_visit store f fuel (r.2.foldl (fun w q => q :: w) work)).map
                (fun rest => r.1 ++ rest)

/-- The per-object visitor of `recursive_delete` (src/s3.rs:274–282): attempt
the delete, log a failure, and always return `Ok(())` ("squash the error and
continue"). -/
def deleteVisitor (del : String → Except String Unit) (k : String) : Except ε Unit :=
  match del k with
  | .error _ => .ok ()
  | .ok _ => .ok ()

/-- Result of a `head` request (src/s3.rs:213–217): the optional
`last_modified` header. -/
structure HeadObjectResult where
  last_modified : Option String

/-- The expiry decision inside the visitor of `Connection::recursive_expire`
(src/s3.rs:290–317): whether `self.delete` is issued for one object.  `parse`
is `DateTime::parse_from_rfc2822`; a missing `last_modified` is
`OptionWasNoneError`.  A reachable object with a parseable timestamp is
deleted exactly when it is strictly older than `expiry_time`; a missing or
unparseable timestamp, or a failed `head`, deletes unconditionally. -/
def expireDeletes (parse : String → Except String Int) (expiry : Int)
    (head : Except String HeadObjectResult) : Bool :=
  match head with
  | .ok result =>
      match (match result.last_modified with
             | none => Except.error "OptionWasNoneError"
             | some d => parse d) with
      | .ok modified => decide (modified < expiry)
      | .error _ => true
  | .error _ => true

/-- The per-object visitor of `recursive_expire` (src/s3.rs:287–319): decide
expiry from the `head` outcome (factored into `expireDeletes`), attempt the
delete when expired, log and squash every error, and always return
`Ok(())`. -/
def expireVisitor (head : String → Except String HeadObjectResult)
    (parse : String → Except String Int) (expiry : Int)
    (del : String → Except String Unit) (k : String) : Except ε Unit :=
  if expireDeletes parse expiry (head k) then
    match del k with
    | .error _ => .ok ()
    | .ok _ => .ok ()
  else .ok ()

/-- Embeds the sweep started by `actions::expire` (src/actions.rs:160–168):
`recursive_expire` is seeded with the root prefix `"objects/"`. -/
def expireSweep (store : String → Except String (List ListPage))
    (head : String → Except String HeadObjectResult)
    (parse : String → Except String Int) (expiry : Int)
    (del : String → Except String Unit) (fuel : Nat) :
    Except (String ⊕ String) (List String) :=
  recursive_visit store (expireVisitor head parse expiry del) fuel ["objects/"]

theorem deleteVisitor_ok (del : String → Except String Unit) (k : String) :
    deleteVisitor (ε := ε) del k = .ok () := by
  unfold deleteVisitor
  cases del k <;> rfl

theorem expireVisitor_ok (head : String → Except String HeadObjectResult)
    (parse : String → Except String Int) (expiry : Int)
    (del : String → Except String Unit) (k : String) :
    expireVisitor (ε := ε) head parse expiry del k = .ok () := by
  unfold expireVisitor
  split
  · cases del k <;> rfl
  · rfl

theorem visitContents_ok (f₁ f₂ : String → Except ε Unit)
    (h₁ : ∀ k, f₁ k = .ok ()) (h₂ : ∀ k, f₂ k = .ok ()) (ks : List String) :
    visitContents f₁ ks = .ok ks ∧ visitContents f₂ ks = .ok ks := by
  induction ks with
  | nil => exact ⟨rfl, rfl⟩
  | cons k rest ih =>
      simp [visitContents, h₁ k, h₂ k, ih.1, ih.2, Except.map]

theorem visitPages_ok (f₁ f₂ : String → Except ε Unit)
    (h₁ : ∀ k, f₁ k = .ok ()) (h₂ : ∀ k, f₂ k = .ok ()) (pgs : List ListPage) :
    visitPages f₁ pgs = visitPages f₂ pgs ∧
    ∀ r, visitPages f₁ pgs ≠ .error r := by
  induction pgs with
  | nil => exact ⟨rfl, by simp [visitPages]⟩
  | cons pg rest ih =>
      obtain ⟨hc1, hc2⟩ := visitContents_ok f₁ f₂ h₁ h₂ pg.contents
      constructor
      · simp [visitPages, hc1, hc2, ih.1]
      · intro r
        simp only [visitPages, hc1]
        rcases hv : visitPages f₁ rest with e | v
        · exact absurd hv (by simpa using ih.2 e)
        · simp [Except.map]

theorem recursive_visit_ok (store : String → Except σ (List ListPage))
    (f₁ f₂ : String → Except ε Unit)
    (h₁ : ∀ k, f₁ k = .ok ()) (h₂ : ∀ k, f₂ k = .ok ()) :
    ∀ (fuel : Nat) (work : List String),
      recursive_visit store f₁ fuel work = recursive_visit store f₂ fuel work ∧
      ∀ e, recursive_visit store f₁ fuel work ≠ .error (.inr e) := by
  intro fuel
  induction fuel with
  | zero => exact fun work => ⟨rfl, by simp [recursive_visit]⟩
  | succ n ih =>
      intro work
      cases work with
      | nil => exact ⟨rfl, by simp [recursive_visit]⟩
      | cons p rest =>
          simp only [recursive_visit]
          cases hs : store p with
          | error e => simp
          | ok pages =>
              dsimp only
              obtain ⟨hp1, hp2⟩ := visitPages_ok f₁ f₂ h₁ h₂ pages
              rcases hv : visitPages f₁ pages with e | r
              · exact absurd hv (by simpa using hp2 e)
              · have hv₂ : visitPages f₂ pages = Except.ok r := by
                  rw [← hp1]
                  exact hv
                rw [hv₂]
                dsimp only
                obtain ⟨hr1, hr2⟩ := ih (r.2.foldl (fun w q => q :: w) rest)
                refine ⟨by rw [hr1], ?_⟩
                intro e
                rcases hrec : recursive_visit store f₁ n (r.2.foldl (fun w q => q :: w) rest)
                    with e2 | v
                · intro hcontra
                  simp [Except.map] at hcontra
                  exact hr2 e (by rw [hrec, hcontra])
                · simp [Except.map]

theorem recursive_visit_listing_fails (store : String → Except σ (List ListPage))
    (f : String → Except ε Unit) (p : String) (work : List String) (e : σ)
    (fuel : Nat) (hs : store p = .error e) :
    recursive_visit store f (fuel + 1) (p :: work) = .error (.inl e) := by
  simp [recursive_visit, hs]

theorem visitContents_ok_eq {f : String → Except ε Unit} :
    ∀ {ks ks' : List String}, visitContents f ks = .ok ks' → ks' = ks := by
  intro ks
  induction ks with
  | nil =>
      intro ks' h
      simp [visitContents] at h
      exact h
  | cons k rest ih =>
      intro ks' h
      simp only [visitContents] at h
      cases hf : f k with
      | error e => rw [hf] at h; cases h
      | ok u =>
          rw [hf] at h
          cases hv : visitContents f rest with
          | error e => rw [hv] at h; cases h
          | ok v =>
              rw [hv] at h
              cases h
              rw [ih hv]

theorem visitPages_ok_parts {f : String → Except ε Unit} :
    ∀ {pgs : List ListPage} {r : List String × List String},
      visitPages f pgs = .ok r →
      r.1 = (pgs.map ListPage.contents).flatten ∧
      r.2 = (pgs.map pagePrefixes).flatten := by
  intro pgs
  induction pgs with
  | nil =>
      intro r h
      simp [visitPages] at h
      simp [← h]
  | cons pg rest ih =>
      intro r h
      simp only [visitPages] at h
      cases hc : visitContents f pg.contents with
      | error e => rw [hc] at h; cases h
      | ok ks =>
          rw [hc] at h
          cases hv : visitPages f rest with
          | error e => rw [hv] at h; cases h
          | ok r2 =>
              rw [hv] at h
              cases h
              obtain ⟨h1, h2⟩ := ih hv
              rw [visitContents_ok_eq hc] at *
              simp [h1, h2]

theorem mem_foldl_push (l : List String) :
    ∀ (work : List String) (q : String),
      q ∈ l.foldl (fun w x => x :: w) work ↔ q ∈ l ∨ q ∈ work := by
  induction l with
  | nil => intro work q; simp
  | cons x xs ih =>
      intro work q
      simp only [List.foldl_cons]
      rw [ih (x :: work) q]
      simp [List.mem_cons]
      tauto

/-- Key prefix order: `p` is a prefix of `s`, as character lists. -/
def strPrefix (p s : String) : Prop := p.data <+: s.data

theorem strPrefix_trans {a b c : String} (h1 : strPrefix a b) (h2 : strPrefix b c) :
    strPrefix a c := List.IsPrefix.trans h1 h2

theorem objects_not_cache {k : String} (h : strPrefix "objects/" k) :
    ¬ strPrefix "cache/" k := by
  intro h2
  obtain ⟨t1, ht1⟩ := h
  obtain ⟨t2, ht2⟩ := h2
  have e1 : k.data.head? = some 'o' := by rw [← ht1]; rfl
  have e2 : k.data.head? = some 'c' := by rw [← ht2]; rfl
  rw [e1] at e2
  exact absurd (Option.some.inj e2) (by decide)

/-- Part of the S3 listing contract assumed of the bucket collaborator: every
leaf key and child prefix returned by listing `p` extends `p`. -/
def StoreListsUnder (store : String → Except σ (List ListPage)) : Prop :=
  ∀ p pages, store p = .ok pages → ∀ pg ∈ pages,
    (∀ k ∈ pg.contents, strPrefix p k) ∧ (∀ q ∈ pagePrefixes pg, strPrefix p q)

theorem recursive_visit_under_root {store : String → Except σ (List ListPage)}
    {f : String → Except ε Unit} {root : String} (hstore : StoreListsUnder store) :
    ∀ (fuel : Nat) (work : List String), (∀ w ∈ work, strPrefix root w) →
      ∀ ks, recursive_visit store f fuel work = .ok ks →
        ∀ k ∈ ks, strPrefix root k := by
  intro fuel
  induction fuel with
  | zero =>
      intro work hw ks h k hk
      simp [recursive_visit] at h
      subst h
      cases hk
  | succ n ih =>
      intro work hw ks h k hk
      cases work with
      | nil =>
          simp [recursive_visit] at h
          subst h
          cases hk
      | cons p rest =>
          simp only [recursive_visit] at h
          cases hs : store p with
          | error e => rw [hs] at h; cases h
          | ok pages =>
              rw [hs] at h
              dsimp only at h
              cases hv : visitPages f pages with
              | error e => rw [hv] at h; cases h
              | ok r =>
                  rw [hv] at h
                  dsimp only at h
                  cases hrec : recursive_visit store f n
                      (r.2.foldl (fun w q => q :: w) rest) with
                  | error e => rw [hrec] at h; cases h
                  | ok restks =>
                      rw [hrec] at h
                      simp only [Except.map] at h
                      cases h
                      have hrootp : strPrefix root p := hw p (List.mem_cons_self p rest)
                      obtain ⟨hr1, hr2⟩ := visitPages_ok_parts hv
                      rcases List.mem_append.mp hk with hk | hk
                      · rw [hr1] at hk
                        rw [List.mem_flatten] at hk
                        obtain ⟨l, hl, hkl⟩ := hk
                        obtain ⟨pg, hpg, rfl⟩ := List.mem_map.mp hl
                        exact strPrefix_trans hrootp
                          ((hstore p pages hs pg hpg).1 k hkl)
                      · refine ih (r.2.foldl (fun w q => q :: w) rest) ?_ restks hrec k hk
                        intro w hwmem
                        rcases (mem_foldl_push r.2 rest w).mp hwmem with hw2 | hw2
                        · rw [hr2] at hw2
                          rw [List.mem_flatten] at hw2
                          obtain ⟨l, hl, hwl⟩ := hw2
                          obtain ⟨pg, hpg, rfl⟩ := List.mem_map.mp hl
                          exact strPrefix_trans hrootp
                            ((hstore p pages hs pg hpg).2 w hwl)
                        · exact hw w (List.mem_cons_of_mem p hw2)

/-! ## Claim theorems -/

/-- Splits a key string at `/` separators into its path segments. -/
def splitSlashAux : List Char → List Char → List String
  | [], acc => [String.mk acc.reverse]
  | c :: rest, acc =>
      if c = '/' then String.mk acc.reverse :: splitSlashAux rest []
      else splitSlashAux rest (c :: acc)

/-- Path segments of a `/`-joined key. -/
def splitSlash (s : String) : List String := splitSlashAux s.data []

/-- C1 counterexample: for the all-zero 256-bit digest, the derived storage
key is `objects/00000000/00000000/00000000/<40 zeros>/bin`: the fan-out
segments hold 8, 8, 8 and 40 hex digits, not 4, 4, 4 and 20 as the claim
states (each segment holds 4, 4, 4 and 20 bytes, two hex digits per byte). -/
theorem C1_counterexample :
    (splitSlash (File.storage_path
        ⟨"f", some (object_path (List.replicate 32 0)), 0, none, none⟩ "c")).map
      String.length = [7, 8, 8, 8, 40, 3] ∧
    ¬ (splitSlash (File.storage_path
        ⟨"f", some (object_path (List.replicate 32 0)), 0, none, none⟩ "c")).map
      String.length = [7, 4, 4, 4, 20, 3] := by
  constructor
  · decide
  · decide

/-- C1 (amended): for every regular file stored in the shared object
namespace, the storage key derived from its 256-bit digest is
`objects/<s1>/<s2>/<s3>/<s4>/bin` where the four fan-out segments render
bytes `0..4`, `4..8`, `8..12` and `12..32` of the digest as 8, 8, 8 and 40
hex digits respectively; the derivation (`object_path`, `storage_path`) is a
pure function of the digest. -/
theorem C1_storage_key_shape (hash : List Nat) (f : File) (name : String)
    (hlen : hash.length = 32) (hobj : f.object = some (object_path hash)) :
    f.storage_path name = "objects/" ++ object_path hash ++ "/bin" ∧
    object_path hash
      = hexString (hash.take 4) ++ "/" ++ hexString ((hash.drop 4).take 4) ++ "/"
        ++ hexString ((hash.drop 8).take 4) ++ "/" ++ hexString (hash.drop 12) ∧
    (hexString (hash.take 4)).length = 8 ∧
    (hexString ((hash.drop 4).take 4)).length = 8 ∧
    (hexString ((hash.drop 8).take 4)).length = 8 ∧
    (hexString (hash.drop 12)).length = 40 := by
  refine ⟨?_, rfl, ?_, ?_, ?_, ?_⟩
  · simp [File.storage_path, hobj]
  · rw [hexString_length]
    simp [List.length_take, hlen]
  · rw [hexString_length]
    simp [List.length_take, List.length_drop, hlen]
  · rw [hexString_length]
    simp [List.length_take, List.length_drop, hlen]
  · rw [hexString_length]
    simp [List.length_drop, hlen]

/-- Witness for C1: the key shape evaluated at the all-zero digest. -/
theorem C1_witness :
    File.storage_path
        ⟨"f", some (object_path (List.replicate 32 0)), 0, none, none⟩ "c"
      = "objects/" ++ object_path (List.replicate 32 0) ++ "/bin" :=
  (C1_storage_key_shape (List.replicate 32 0)
    ⟨"f", some (object_path (List.replicate 32 0)), 0, none, none⟩ "c"
    (by decide) rfl).1

/-- C3: during upload the manifest entry of a resolved regular file has
`object` set if and only if its size exceeds the threshold `T`; a file of
size `T + 1` is addressed into the shared `objects/` namespace, and a file
of size exactly `T` is stored inline with `object` absent
(src/actions.rs:235–241). -/
theorem C3_threshold_policy (T : Nat) (p : String) (md : Nat) (h : List Nat)
    (name : String) :
    (∀ m : Meta, ((regularEntry m T).object).isSome
        ↔ T < (m.file.map FileStat.len).getD 0) ∧
    (regularEntry ⟨p, some ⟨T + 1, md⟩, some h, none⟩ T).object
      = some (object_path h) ∧
    (regularEntry ⟨p, some ⟨T + 1, md⟩, some h, none⟩ T).storage_path name
      = "objects/" ++ object_path h ++ "/bin" ∧
    (regularEntry ⟨p, some ⟨T, md⟩, some h, none⟩ T).object = none ∧
    (regularEntry ⟨p, some ⟨T, md⟩, some h, none⟩ T).storage_path name
      = "cache/" ++ name ++ "/files/" ++ p := by
  refine ⟨?_, ?_, ?_, ?_, ?_⟩
  · intro m
    by_cases hgt : (m.file.map FileStat.len).getD 0 > T <;>
      simp [regularEntry, hgt]
  · simp [regularEntry, Meta.object_path_opt]
  · simp [regularEntry, Meta.object_path_opt, File.storage_path]
  · simp [regularEntry]
  · simp [regularEntry, File.storage_path]

/-- C4: during recursive expire, an object whose `head` fails, whose
timestamp is missing, or whose timestamp does not parse, is deleted
(fail-open); an object with a parseable timestamp is deleted if and only if
it is strictly older than the cutoff (src/s3.rs:290–317). -/
theorem C4_expire_fail_open (parse : String → Except String Int) (expiry : Int) :
    (∀ e, expireDeletes parse expiry (.error e) = true) ∧
    (expireDeletes parse expiry (.ok ⟨none⟩) = true) ∧
    (∀ d e, parse d = .error e → expireDeletes parse expiry (.ok ⟨some d⟩) = true) ∧
    (∀ d t, parse d = .ok t →
      (expireDeletes parse expiry (.ok ⟨some d⟩) = true ↔ t < expiry)) := by
  refine ⟨fun e => rfl, rfl, ?_, ?_⟩
  · intro d e hp
    simp [expireDeletes, hp]
  · intro d t hp
    simp [expireDeletes, hp]

/-- Witness for C4: the expiry decision with a concrete parser, an
unparseable timestamp, and a parseable one younger than the cutoff. -/
theorem C4_witness :
    expireDeletes (fun s => if s = "good" then Except.ok 5 else Except.error "bad")
      3 (.ok ⟨some "junk"⟩) = true ∧
    ¬ expireDeletes (fun s => if s = "good" then Except.ok 5 else Except.error "bad")
      3 (.ok ⟨some "good"⟩) = true := by
  constructor
  · exact (C4_expire_fail_open _ 3).2.2.1 "junk" "bad" rfl
  · intro hdel
    have h5 : (5 : Int) < 3 :=
      ((C4_expire_fail_open (fun s => if s = "good" then Except.ok 5 else Except.error "bad")
        3).2.2.2 "good" 5 rfl).mp hdel
    exact absurd h5 (by decide)

/-- C2: with in-flight limit `K ≥ 1` and `N > K` uploadable regular files
whose metadata and uploads all succeed: every reachable loop state has at
most `K` outstanding upload tasks; every reachable non-drained state can
step, strictly decreasing the termination measure (so the loop finishes);
and every drained state has an empty pending queue with all `N` uploads
completed. -/
theorem C2_admission_control (K T N : Nat) (metas : List (Except String Meta))
    (uRes : File → Except String Unit)
    (hK : 1 ≤ K) (hN : cacheableCount metas = N) (hNK : K < N)
    (hOk : ∀ x ∈ metas, ∃ m, x = .ok m) (hup : ∀ fl, uRes fl = .ok ()) :
    ∀ s, Reach K T uRes (.running (initState metas)) (.running s) →
      s.uploads.length ≤ K ∧
      (s.metas = [] ∧ s.uploads = [] → s.delayed = [] ∧ s.done = N) ∧
      (s.metas = [] ∧ s.uploads = [] ∨
        ∃ s', Step K T uRes (.running s) (.running s') ∧
          schedMeasure s' < schedMeasure s) := by
  intro s hreach
  have hinv : Inv K N s := reach_inv hreach (initState_inv K N metas hN)
  have hmok : ∀ x ∈ s.metas, ∃ m, x = .ok m := reach_metasOk hreach hOk
  refine ⟨?_, fun hterm => terminal_state hinv hK hterm.1 hterm.2, ?_⟩
  · rw [← hinv.net_eq]
    exact hinv.net_le
  · by_cases hterm : s.metas = [] ∧ s.uploads = []
    · exact Or.inl hterm
    · right
      have hne : s.metas ≠ [] ∨ s.uploads ≠ [] := by tauto
      obtain ⟨s', hstep⟩ := progress_running s hmok hup hne
      exact ⟨s', hstep, step_decreases hstep hinv⟩

/-- A cacheable regular-file metadata result used in witnesses. -/
def sampleMeta (p : String) : Meta :=
  ⟨p, some ⟨5, 420⟩, some (List.replicate 32 7), none⟩

/-- Witness for C2: the scheduler facts at the initial state of a run with
two uploadable files and in-flight limit 1. -/
theorem C2_witness :
    (initState [Except.ok (sampleMeta "a"), Except.ok (sampleMeta "b")]).uploads.length ≤ 1 ∧
    ((initState [Except.ok (sampleMeta "a"), Except.ok (sampleMeta "b")]).metas = [] ∧
      (initState [Except.ok (sampleMeta "a"), Except.ok (sampleMeta "b")]).uploads = [] →
      (initState [Except.ok (sampleMeta "a"), Except.ok (sampleMeta "b")]).delayed = [] ∧
      (initState [Except.ok (sampleMeta "a"), Except.ok (sampleMeta "b")]).done = 2) ∧
    ((initState [Except.ok (sampleMeta "a"), Except.ok (sampleMeta "b")]).metas = [] ∧
      (initState [Except.ok (sampleMeta "a"), Except.ok (sampleMeta "b")]).uploads = [] ∨
      ∃ s', Step 1 0 (fun _ => Except.ok ())
          (.running (initState [Except.ok (sampleMeta "a"), Except.ok (sampleMeta "b")]))
          (.running s') ∧
        schedMeasure s'
          < schedMeasure (initState [Except.ok (sampleMeta "a"), Except.ok (sampleMeta "b")])) :=
  C2_admission_control 1 0 2 [Except.ok (sampleMeta "a"), Except.ok (sampleMeta "b")]
    (fun _ => Except.ok ()) (by decide) rfl (by decide)
    (by
      intro x hx
      rcases List.mem_cons.mp hx with rfl | hx
      · exact ⟨sampleMeta "a", rfl⟩
      rcases List.mem_cons.mp hx with rfl | hx
      · exact ⟨sampleMeta "b", rfl⟩
      · cases hx)
    (fun _ => rfl)
    (initState [Except.ok (sampleMeta "a"), Except.ok (sampleMeta "b")])
    Relation.ReflTransGen.refl

/-- C7: every manifest entry appended by the upload loop keeps content
address and link target exclusive: a symlink entry carries `link_target`
with both `object` and `mode` absent, and no entry ever carries both a
content address and a link target (src/actions.rs:207–251). -/
theorem C7_entry_exclusivity (K T : Nat) (metas : List (Except String Meta))
    (uRes : File → Except String Unit) :
    ∀ s, Reach K T uRes (.running (initState metas)) (.running s) →
      ∀ f ∈ s.files,
        (f.link_target.isSome → f.object = none ∧ f.mode = none) ∧
        ¬ (f.object.isSome ∧ f.link_target.isSome) := by
  intro s hreach f hf
  have hinv : Inv K (cacheableCount metas) s :=
    reach_inv hreach (initState_inv K (cacheableCount metas) metas rfl)
  have hexcl := hinv.entries f hf
  refine ⟨hexcl, ?_⟩
  rintro ⟨ho, hl⟩
  rcases hexcl hl with ⟨hobj, _⟩
  rw [hobj] at ho
  simp at ho

/-- A symlink metadata result used in witnesses. -/
def linkMeta : Meta := ⟨"lib/libfoo.so", none, none, some "libfoo.so.1"⟩

/-- Witness for C7: the symlink entry appended by one loop iteration carries
no content address and no mode. -/
theorem C7_witness :
    (symlinkEntry linkMeta "libfoo.so.1").object = none ∧
    (symlinkEntry linkMeta "libfoo.so.1").mode = none :=
  (C7_entry_exclusivity 1 0 [Except.ok linkMeta] (fun _ => Except.ok ()) _
    (Relation.ReflTransGen.single (Step.metaOk _ [] [] linkMeta rfl))
    (symlinkEntry linkMeta "libfoo.so.1")
    (by exact List.mem_singleton.mpr rfl)).1 rfl

/-- C8: a failure of any single per-file task aborts the whole operation:
the upload loop steps to the failed outcome when it picks a failed metadata
or upload task, no step ever leaves a failed outcome, and the download drain
loop returns the first failed download's error without examining later
results (src/actions.rs:195–271, 335–344). -/
theorem C8_single_failure_aborts (K T : Nat) (uRes : File → Except String Unit) :
    (∀ (s : SchedState) (pre post : List (Except String Meta)) (e : String),
      s.metas = pre ++ .error e :: post → Step K T uRes (.running s) (.failed e)) ∧
    (∀ (s : SchedState) (pre post : List File) (f : File) (e : String),
      s.uploads = pre ++ f :: post → uRes f = .error e →
      Step K T uRes (.running s) (.failed e)) ∧
    (∀ (e : String) (o : Outcome), ¬ Step K T uRes (.failed e) o) ∧
    (∀ (pre : List (Except String Unit)) (e : String)
       (post : List (Except String Unit)),
      (∀ r ∈ pre, r = .ok ()) →
      downloadLoop (pre ++ .error e :: post) = .error e) := by
  refine ⟨fun s pre post e hm => .metaErr s pre post e hm,
          fun s pre post f e hu hr => .uploadErr s pre post f e hu hr, ?_, ?_⟩
  · intro e o hstep
    cases hstep
  · intro pre e post hpre
    induction pre with
    | nil => rfl
    | cons r rest ih =>
        have hr : r = .ok () := hpre r (List.mem_cons_self r rest)
        subst hr
        exact ih (fun x hx => hpre x (List.mem_cons_of_mem _ hx))

/-- Witness for C8: a failed metadata task aborts the upload loop, and a
failed download aborts the download drain with its error. -/
theorem C8_witness :
    Step 1 0 (fun _ => Except.ok ())
      (.running (initState [Except.error "stat failed"])) (.failed "stat failed") ∧
    downloadLoop [Except.ok (), Except.error "download failed", Except.ok ()]
      = Except.error "download failed" := by
  constructor
  · exact (C8_single_failure_aborts 1 0 (fun _ => Except.ok ())).1 _ [] [] "stat failed" rfl
  · exact (C8_single_failure_aborts 1 0 (fun _ => Except.ok ())).2.2.2 [Except.ok ()]
      "download failed" [Except.ok ()] (fun r hr => List.mem_singleton.mp hr)

/-- C5: per-object failures never abort a sweep: the delete and expire
visitors squash every per-object error, so the walk's result is identical
under any delete/head/parse oracles (every remaining object is still
visited) and is never a visitor error; only a failure of the listing
operation aborts the sweep, and it does so with that error
(src/s3.rs:247–320). -/
theorem C5_sweep_error_policy (store : String → Except String (List ListPage))
    (fuel : Nat) (work : List String) :
    (∀ del₁ del₂ : String → Except String Unit,
      recursive_visit store (deleteVisitor (ε := String) del₁) fuel work
        = recursive_visit store (deleteVisitor (ε := String) del₂) fuel work) ∧
    (∀ (del : String → Except String Unit) e,
      recursive_visit store (deleteVisitor (ε := String) del) fuel work
        ≠ .error (.inr e)) ∧
    (∀ (head₁ head₂ : String → Except String HeadObjectResult)
       (parse₁ parse₂ : String → Except String Int) (x₁ x₂ : Int)
       (del₁ del₂ : String → Except String Unit),
      recursive_visit store (expireVisitor (ε := String) head₁ parse₁ x₁ del₁) fuel work
        = recursive_visit store (expireVisitor (ε := String) head₂ parse₂ x₂ del₂) fuel work) ∧
    (∀ (ex : String → Except String Unit) e,
      recursive_visit store (expireVisitor (ε := String)
        (fun _ => .error "head") (fun _ => .error "parse") 0 ex) fuel work ≠ .error (.inr e)) ∧
    (∀ (f : String → Except String Unit) (p : String) (rest : List String)
       (e : String) (n : Nat),
      store p = .error e →
      recursive_visit store f (n + 1) (p :: rest) = .error (.inl e)) := by
  refine ⟨?_, ?_, ?_, ?_, ?_⟩
  · intro del₁ del₂
    exact (recursive_visit_ok store _ _ (deleteVisitor_ok del₁)
      (deleteVisitor_ok del₂) fuel work).1
  · intro del e
    exact (recursive_visit_ok store _ _ (deleteVisitor_ok del)
      (deleteVisitor_ok del) fuel work).2 e
  · intro h₁ h₂ p₁ p₂ x₁ x₂ d₁ d₂
    exact (recursive_visit_ok store _ _ (expireVisitor_ok h₁ p₁ x₁ d₁)
      (expireVisitor_ok h₂ p₂ x₂ d₂) fuel work).1
  · intro ex e
    exact (recursive_visit_ok store _ _
      (expireVisitor_ok (fun _ => .error "head") (fun _ => .error "parse") 0 ex)
      (expireVisitor_ok (fun _ => .error "head") (fun _ => .error "parse") 0 ex) fuel work).2 e
  · intro f p rest e n hs
    exact recursive_visit_listing_fails store f p rest e n hs

/-- Witness for C5: a failing listing aborts a concrete sweep with that
error, while a sweep over an empty store ignores the delete oracle. -/
theorem C5_witness :
    recursive_visit (fun _ : String => (Except.error "listing failed"
        : Except String (List ListPage)))
      (deleteVisitor (ε := String) (fun _ => Except.ok ())) 1 ["objects/"]
      = .error (.inl "listing failed") ∧
    recursive_visit (fun _ : String => (Except.ok [] : Except String (List ListPage)))
      (deleteVisitor (ε := String) (fun _ => Except.error "delete failed")) 1 ["x"]
      = recursive_visit (fun _ : String => (Except.ok [] : Except String (List ListPage)))
          (deleteVisitor (ε := String) (fun _ => Except.ok ())) 1 ["x"] :=
  ⟨(C5_sweep_error_policy _ 1 ["objects/"]).2.2.2.2
      (deleteVisitor (fun _ => Except.ok ())) "objects/" [] "listing failed" 0 rfl,
   (C5_sweep_error_policy _ 1 ["x"]).1 (fun _ => Except.error "delete failed")
      (fun _ => Except.ok ())⟩

/-- C6 counterexample: serializing a manifest entry with no content address
emits an explicit `"object": null` member — the absent field is present as
`null` in the JSON, not omitted. -/
theorem C6_counterexample :
    lookupField (Json.fields (encodeFile ⟨"small.txt", none, 7, none, none⟩)) "object"
      = some Json.null ∧
    (lookupField (Json.fields (encodeFile ⟨"small.txt", none, 7, none, none⟩))
      "object").isSome = true :=
  ⟨rfl, rfl⟩

/-- C6 (amended): encoding a manifest under the `v1` version tag and
decoding the result yields an equal manifest, for entries covering all three
kinds; absent optional fields are serialized as explicit JSON `null` members
(not omitted), and the decoder accepts a missing `object`/`mode`/
`link_target` field as `None` as well. -/
theorem C6_manifest_round_trip (c : Cache) :
    decode (Cache.into_json c) = .ok c ∧
    (∀ f : File, f.object = none →
      lookupField (Json.fields (encodeFile f)) "object" = some Json.null) ∧
    (∀ p n, decodeFile (.obj [("path", .str p), ("size", .num n)])
      = .ok ⟨p, none, n, none, none⟩) := by
  refine ⟨decode_into_json c, ?_, ?_⟩
  · intro f hobj
    simp [encodeFile, lookupField, Json.fields, hobj, encodeOpt, List.find?]
  · intro p n
    rfl

/-- Witness for C6: round trip of a three-kind manifest, and the explicit
null on a concrete inline entry. -/
theorem C6_witness :
    decode (Cache.into_json ⟨[⟨"foo.exe", some "aa/bb/cc/dd", 123456, some 33204, none⟩,
                              ⟨"small.txt", none, 7, none, none⟩,
                              ⟨"libfoo.so", none, 11, none, some "libfoo.so.1"⟩]⟩)
      = .ok ⟨[⟨"foo.exe", some "aa/bb/cc/dd", 123456, some 33204, none⟩,
              ⟨"small.txt", none, 7, none, none⟩,
              ⟨"libfoo.so", none, 11, none, some "libfoo.so.1"⟩]⟩ ∧
    lookupField (Json.fields (encodeFile ⟨"small.txt", none, 7, none, none⟩)) "object"
      = some Json.null :=
  ⟨(C6_manifest_round_trip _).1, (C6_manifest_round_trip ⟨[]⟩).2.1 _ rfl⟩

/-- C9: the digest computed by `read_hash` depends only on the file's byte
content: any two read runs over the same content — whatever chunk boundaries
the buffered reads produce within the clamped buffer size — feed the hasher
the identical byte stream and yield the same 32-byte (256-bit) digest. -/
theorem C9_digest_deterministic (content : List Nat)
    (chunks₁ chunks₂ : List (List Nat))
    (h₁ : IsReadRun (buf_size (some content.length)) chunks₁ content)
    (h₂ : IsReadRun (buf_size (some content.length)) chunks₂ content) :
    readHashFed chunks₁ = content ∧ readHashFed chunks₂ = content ∧
    read_hash chunks₁ = read_hash chunks₂ ∧
    (read_hash chunks₁).length = 32 := by
  have e₁ : readHashFed chunks₁ = content := by
    rw [readHashFed_eq_join, h₁.1]
  have e₂ : readHashFed chunks₂ = content := by
    rw [readHashFed_eq_join, h₂.1]
  refine ⟨e₁, e₂, ?_, ?_⟩
  · unfold read_hash
    rw [e₁, e₂]
  · simp [read_hash, sha256, hashBytes_length]

/-- Witness for C9: two different chunkings of the same three bytes yield
the identical digest. -/
theorem C9_witness :
    readHashFed [[1, 2], [3]] = [1, 2, 3] ∧ readHashFed [[1, 2, 3]] = [1, 2, 3] ∧
    read_hash [[1, 2], [3]] = read_hash [[1, 2, 3]] ∧
    (read_hash [[1, 2], [3]]).length = 32 :=
  C9_digest_deterministic [1, 2, 3] [[1, 2], [3]] [[1, 2, 3]]
    ⟨rfl, by decide⟩ ⟨rfl, by decide⟩

/-- C10: for every cutoff, the expire sweep visits only keys under the
`objects/` prefix (given the listing contract of the store): no visited key
lies under `cache/`, so no manifest key `cache/<name>/entry` and no inline
file key `cache/<name>/files/<path>` is ever passed to the deleting
visitor. -/
theorem C10_expire_frame (store : String → Except String (List ListPage))
    (head : String → Except String HeadObjectResult)
    (parse : String → Except String Int) (expiry : Int)
    (del : String → Except String Unit) (fuel : Nat) (ks : List String)
    (hstore : StoreListsUnder store)
    (hrun : expireSweep store head parse expiry del fuel = .ok ks) :
    ∀ k ∈ ks, strPrefix "objects/" k ∧ ¬ strPrefix "cache/" k ∧
      ∀ name, k ≠ Cache.entry_location name := by
  intro k hk
  have hpref : strPrefix "objects/" k :=
    recursive_visit_under_root hstore fuel ["objects/"]
      (by
        intro w hw
        rcases List.mem_singleton.mp hw with rfl
        exact List.prefix_rfl)
      ks hrun k hk
  refine ⟨hpref, objects_not_cache hpref, ?_⟩
  intro name hkeq
  apply objects_not_cache hpref
  rw [hkeq]
  show ("cache/").data <+: (Cache.entry_location name).data
  simp only [Cache.entry_location, String.data_append]
  exact (("cache/").data).prefix_append _

/-- Witness for C10: a one-object store whose sweep visits exactly
`objects/aa/bin`, a key under `objects/` and not under `cache/`. -/
theorem C10_witness :
    strPrefix "objects/" "objects/aa/bin" ∧
    ¬ strPrefix "cache/" "objects/aa/bin" := by
  have h := C10_expire_frame
    (fun p => if p = "objects/" then .ok [⟨["objects/aa/bin"], none⟩] else .ok [])
    (fun _ => .error "gone") (fun _ => .error "unparseable") 0 (fun _ => .ok ())
    2 ["objects/aa/bin"]
    (by
      intro p pages hp pg hpg
      by_cases hpe : p = "objects/"
      · subst hpe
        simp at hp
        subst hp
        rcases List.mem_singleton.mp hpg with rfl
        refine ⟨?_, ?_⟩
        · intro k hk
          rcases List.mem_singleton.mp hk with rfl
          exact ⟨"aa/bin".data, rfl⟩
        · intro q hq
          simp [pagePrefixes] at hq
      · simp [hpe] at hp
        subst hp
        cases hpg)
    rfl
    "objects/aa/bin" (List.mem_singleton.mpr rfl)
  exact ⟨h.1, h.2.1⟩

end S3Cache
